import Mathlib

/-!
Shallow embedding of `scripts/analyze-i18n-keys.py`, the i18n translation-key
usage analyzer of the aiponge repository, together with theorems about the
behaviour of its pipeline (flattening, direct scan, dynamic-pattern
extraction, deep scan, classification, report assembly).

Modelling conventions:
* Python `dict` objects are modelled as ordered association lists with
  Python's assignment semantics (overwrite in place, append when fresh).
* Python `set` objects are modelled as duplicate-free lists built by
  `setAdd`; only membership and iteration-insensitive facts are used.
* File contents are Lean `String`s; the regular-expression scans of the
  script are implemented as character-level scanners reproducing the
  semantics of `re.finditer` (leftmost matches, non-overlapping, continuing
  after the end of each match).  The Python character classes `\w` and `\s`
  are modelled over their ASCII ranges.
* A source file that raises on `open`/`read` is modelled by a `none`
  content.  Path manipulation (`os.path.relpath`) is external to the
  analysis, so a file carries both its path and its relative path as data.
-/

namespace I18nAnalyze

/-! ## Character classes (ASCII fragments of the Python regex classes) -/

def isAlphaCh (c : Char) : Bool :=
  ('a' ≤ c && c ≤ 'z') || ('A' ≤ c && c ≤ 'Z')

def isDigitCh (c : Char) : Bool :=
  '0' ≤ c && c ≤ '9'

def isAlnumCh (c : Char) : Bool :=
  isAlphaCh c || isDigitCh c

def isWordCh (c : Char) : Bool :=
  isAlnumCh c || c = '_'

def isSpaceCh (c : Char) : Bool :=
  c = ' ' || c = '\t' || c = '\n' || c = '\r' || c = '\x0b' || c = '\x0c'

/-- The single-quote character. -/
def sq : Char := Char.ofNat 39

/-- The double-quote character. -/
def dq : Char := Char.ofNat 34

/-- The backtick character. -/
def bq : Char := Char.ofNat 96

/-- Member of the quote class `['"]`. -/
def isQuote2 (c : Char) : Bool := c = sq || c = dq

/-- Member of the quote class of `t(...)` literals (single, double, backtick). -/
def isQuote3 (c : Char) : Bool := c = sq || c = dq || c = bq

/-! ## Generic list helpers -/

/-- Match a literal character sequence at the front of the input,
returning the remaining input on success. -/
def stripLit : List Char → List Char → Option (List Char)
  | [], l => some l
  | _ :: _, [] => none
  | p :: ps, c :: cs => if p = c then stripLit ps cs else none

/-- Skip the longest run of whitespace (the regex `\s*`). -/
def skipSpaces : List Char → List Char
  | [] => []
  | c :: cs => if isSpaceCh c then skipSpaces cs else c :: cs

/-- Longest run of `\w` characters, returned together with the rest. -/
def takeWord : List Char → (List Char × List Char)
  | [] => ([], [])
  | c :: cs =>
    if isWordCh c then
      let p := takeWord cs
      (c :: p.1, p.2)
    else ([], c :: cs)

/-- Longest run of `[a-zA-Z0-9]` characters, returned together with the rest. -/
def takeAlnum : List Char → (List Char × List Char)
  | [] => ([], [])
  | c :: cs =>
    if isAlnumCh c then
      let p := takeAlnum cs
      (c :: p.1, p.2)
    else ([], c :: cs)

/-- Substring test on character lists (Python's `in` on strings). -/
def listContainsSub (sub : List Char) : List Char → Bool
  | [] => sub.isEmpty
  | c :: cs => sub.isPrefixOf (c :: cs) || listContainsSub sub cs

/-- Substring test on strings (Python's `sub in s`). -/
def strContainsSub (s sub : String) : Bool :=
  listContainsSub sub.data s.data

/-- Python `s.endswith(suffix)`. -/
def strEndsWith (s suf : String) : Bool :=
  suf.data.reverse.isPrefixOf s.data.reverse

/-- Python `s.lower()` (over the ASCII range, per the modelling convention). -/
def strLower (s : String) : String :=
  String.mk (s.data.map Char.toLower)

/-- Python string comparison (lexicographic on code points), as a Boolean. -/
def listLe : List Char → List Char → Bool
  | [], _ => true
  | _ :: _, [] => false
  | a :: as, b :: bs => if a = b then listLe as bs else decide (a < b)

def strLe (s t : String) : Bool :=
  listLe s.data t.data

/-- Python `key.startswith(p)`. -/
def strStartsWith (key p : String) : Bool :=
  p.data.isPrefixOf key.data

/-- Python `set.add`: append the element unless it is already present. -/
def setAdd (s : List String) (x : String) : List String :=
  if x ∈ s then s else s ++ [x]

/-! ## The key document and `flatten_keys` -/

/-- A JSON leaf value as it can appear in the key document. -/
inductive JVal where
  | str (s : String)
  | num (n : Int)
  | bool (b : Bool)
  | null
  deriving DecidableEq

/-- Python `str()` on a leaf value. -/
def pyStr : JVal → String
  | .str s => s
  | .num n => toString n
  | .bool b => if b then "True" else "False"
  | .null => "None"

/-- A nested key document: an ordered mapping whose entries are either leaf
values or nested mappings (`dict` in the script). -/
inductive KeyDoc where
  | nil
  | consLeaf (k : String) (v : JVal) (rest : KeyDoc)
  | consDict (k : String) (sub : KeyDoc) (rest : KeyDoc)
  deriving DecidableEq

/-- `f"{prefix}.{k}" if prefix else k` from `flatten_keys`. -/
def joinKey (pfx k : String) : String :=
  if pfx = "" then k else pfx ++ "." ++ k

/-- Python dict assignment `d[k] = v`: overwrite in place when the key is
present, append otherwise. -/
def dictInsert (d : List (String × String)) (k v : String) : List (String × String) :=
  if d.any (fun p => decide (p.1 = k)) then
    d.map (fun p => if p.1 = k then (k, v) else p)
  else d ++ [(k, v)]

/-- Python `d.update(other)`: assign every entry of `other` in order. -/
def dictUpdate (d other : List (String × String)) : List (String × String) :=
  other.foldl (fun acc kv => dictInsert acc kv.1 kv.2) d

/-- Python dict lookup (keys are unique in a real dict, so the first match
is the binding). -/
def dictLookup : List (String × String) → String → Option String
  | [], _ => none
  | kv :: rest, key => if kv.1 = key then some kv.2 else dictLookup rest key

/-- The loop body of `flatten_keys`, threading the accumulated `keys` dict. -/
def flattenInto : KeyDoc → String → List (String × String) → List (String × String)
  | .nil, _, keys => keys
  | .consLeaf k v rest, pfx, keys =>
    flattenInto rest pfx (dictInsert keys (joinKey pfx k) (pyStr v))
  | .consDict k sub rest, pfx, keys =>
    flattenInto rest pfx (dictUpdate keys (flattenInto sub (joinKey pfx k) []))

/-- `flatten_keys(obj, prefix)` from the script. -/
def flatten_keys (obj : KeyDoc) (pfx : String) : List (String × String) :=
  flattenInto obj pfx []

/-! ### Spec-side description of flattening

The following two definitions follow the specification's words (each leaf
contributes its dot-joined path with the parent segment prefixed, leaf
values are stringified, and when two paths collapse to the same dotted
string the later one in iteration order wins).  They exist only to be
compared with `flatten_keys`. -/

/-- All leaves of the document in iteration order, each paired with its
dot-joined path and stringified value (spec-side description). -/
def leafPaths : KeyDoc → String → List (String × String)
  | .nil, _ => []
  | .consLeaf k v rest, pfx => (joinKey pfx k, pyStr v) :: leafPaths rest pfx
  | .consDict k sub rest, pfx => leafPaths sub (joinKey pfx k) ++ leafPaths rest pfx

/-- Last-write-wins lookup: the value of the *last* binding of `key`
(spec-side description). -/
def lastLookup : List (String × String) → String → Option String
  | [], _ => none
  | kv :: rest, key =>
    match lastLookup rest key with
    | some v => some v
    | none => if kv.1 = key then some kv.2 else none

/-! ## The regex scanners

Each Python `re.finditer` loop becomes a character-level scanner.  A scan
walks the content left to right, attempting a match at each position; on a
match it emits the captured payload and resumes after the end of the match,
otherwise it advances one character.  The fuel argument bounds the number of
iterations; every iteration consumes at least one character, so
`content.length + 1` is always sufficient. -/

/-- A word boundary `\b` holds before the current position when the previous
character (if any) is not a word character (the pattern position is always
in front of a word character here). -/
def wordBoundary : Option Char → Bool
  | none => true
  | some c => !isWordCh c

/-- `t\s*\(\s*` — the tail of the translation-call opener, positioned at the
`t`.  Returns the input just after the spaces following the parenthesis. -/
def matchTOpen (l : List Char) : Option (List Char) :=
  match l with
  | c :: cs =>
    if c = 't' then
      match skipSpaces cs with
      | c2 :: cs2 => if c2 = '(' then some (skipSpaces cs2) else none
      | [] => none
    else none
  | [] => none

/-- `(?:\bi18n(?:ext)?\.)?\bt\s*\(\s*` — the shared opener of the three
translation-call patterns, with the greedy alternation order of the regex
(`i18next.` first, then `i18n.`, then the bare `t`). -/
def matchTPrefix (prev : Option Char) (l : List Char) : Option (List Char) :=
  if wordBoundary prev then
    match stripLit "i18next.".data l with
    | some r => matchTOpen r
    | none =>
      match stripLit "i18n.".data l with
      | some r => matchTOpen r
      | none => matchTOpen l
  else none

/-- Characters allowed inside the quoted key of `t('key')`: anything except
the three quote characters and `$` (the class `[^'"\x60$]`). -/
def keyChar (c : Char) : Bool :=
  !(isQuote3 c || c = '$')

/-- The quoted-literal argument `['"\x60]([^'"\x60$]+?)['"\x60]`, positioned
just after the opener.  Returns the captured key, the closing quote and the
rest of the input. -/
def matchQuotedKey (r : List Char) : Option (String × Char × List Char) :=
  match r with
  | q :: r2 =>
    if isQuote3 q then
      let grp := r2.takeWhile keyChar
      match r2.dropWhile keyChar with
      | q2 :: r3 =>
        if isQuote3 q2 && !grp.isEmpty then some (String.mk grp, q2, r3) else none
      | [] => none
    else none
  | [] => none

/-- Generic `finditer` loop for a matcher that needs no look-behind. -/
def scanWith (m : List Char → Option (String × List Char)) :
    Nat → List Char → List String
  | 0, _ => []
  | _ + 1, [] => []
  | fuel + 1, c :: cs =>
    match m (c :: cs) with
    | some (key, rest) => key :: scanWith m fuel rest
    | none => scanWith m fuel cs

/-- Generic `finditer` loop for a matcher that consults the previous
character (for `\b`); the matcher reports the last character it consumed. -/
def scanPrev {α : Type} (m : Option Char → List Char → Option (List α × Char × List Char)) :
    Nat → Option Char → List Char → List α
  | 0, _, _ => []
  | _ + 1, _, [] => []
  | fuel + 1, prev, c :: cs =>
    match m prev (c :: cs) with
    | some (items, last, rest) => items ++ scanPrev m fuel (some last) rest
    | none => scanPrev m fuel (some c) cs

/-- One match of pattern `(?:\bi18n(?:ext)?\.)?\bt\s*\(\s*['"\x60]
([^'"\x60$]+?)['"\x60]` at the current position. -/
def matchTCall (prev : Option Char) (l : List Char) :
    Option (List String × Char × List Char) :=
  match matchTPrefix prev l with
  | none => none
  | some r =>
    match matchQuotedKey r with
    | some (key, q2, rest) => some ([key], q2, rest)
    | none => none

/-- `\s*=\s*['"]([^'"]+?)['"]` — the attribute-value tail shared by the
`i18nKey` and `FormattedMessage` patterns. -/
def matchEqQuoted (r : List Char) : Option (String × List Char) :=
  match skipSpaces r with
  | c :: r2 =>
    if c = '=' then
      match skipSpaces r2 with
      | q :: r3 =>
        if isQuote2 q then
          let grp := r3.takeWhile (fun ch => !isQuote2 ch)
          match r3.dropWhile (fun ch => !isQuote2 ch) with
          | _ :: r4 => if grp.isEmpty then none else some (String.mk grp, r4)
          | [] => none
        else none
      | [] => none
    else none
  | [] => none

/-- One match of `i18nKey\s*=\s*['"]([^'"]+?)['"]`. -/
def matchI18nKeyAttr (l : List Char) : Option (String × List Char) :=
  match stripLit "i18nKey".data l with
  | none => none
  | some r => matchEqQuoted r

/-- One match of `<FormattedMessage\s+id\s*=\s*['"]([^'"]+?)['"]`. -/
def matchFormattedMessage (l : List Char) : Option (String × List Char) :=
  match stripLit "<FormattedMessage".data l with
  | none => none
  | some r =>
    match r with
    | c :: r1 =>
      if isSpaceCh c then
        match stripLit "id".data (skipSpaces r1) with
        | some r2 => matchEqQuoted r2
        | none => none
      else none
    | [] => none

/-- `extract_t_calls` from the script: the union of the three direct-usage
patterns over the file content (duplicates are harmless: the caller adds the
results to a set). -/
def extract_t_calls (content : String) : List String :=
  scanPrev matchTCall (content.data.length + 1) none content.data ++
    scanWith matchI18nKeyAttr (content.data.length + 1) content.data ++
      scanWith matchFormattedMessage (content.data.length + 1) content.data

/-! ## Dynamic-pattern extraction -/

/-- A record appended to `dynamic_patterns` by `extract_dynamic_patterns`:
a template pattern with its trimmed literal prefix, or a variable-reference
pattern with `pfx = none` (the Python `"prefix": None`). -/
structure DynPattern where
  pattern : String
  pfx : Option String
  file : String
  deriving DecidableEq

/-- `rstrip('.')`: drop trailing dots. -/
def rstripDot (p : List Char) : List Char :=
  (p.reverse.dropWhile (fun ch => ch == '.')).reverse

/-- The Python post-processing of one template match: `re.match(r'^([^$]+)\$\{',
template)`; on success the pattern is recorded with its dot-trimmed prefix,
otherwise nothing is recorded. -/
def templatePatterns (file : String) (seg : List Char) : List DynPattern :=
  let p := seg.takeWhile (fun ch => !(ch == '$'))
  match seg.dropWhile (fun ch => !(ch == '$')) with
  | c1 :: c2 :: _ =>
    if c1 == '$' && c2 == '{' && !p.isEmpty then
      [⟨String.mk seg, some (String.mk (rstripDot p)), file⟩]
    else []
  | _ => []

/-- One match of `(?:\bi18n(?:ext)?\.)?\bt\s*\(\s*\x60([^\x60]*\$\{[^\x60]*)\x60`:
a backtick-delimited template containing an interpolation marker. -/
def matchTemplate (file : String) (prev : Option Char) (l : List Char) :
    Option (List DynPattern × Char × List Char) :=
  match matchTPrefix prev l with
  | none => none
  | some r =>
    match r with
    | q :: r2 =>
      if q = bq then
        let seg := r2.takeWhile (fun ch => !(ch == bq))
        match r2.dropWhile (fun ch => !(ch == bq)) with
        | q2 :: r3 =>
          if listContainsSub "$\x7b".data seg then
            some (templatePatterns file seg, q2, r3)
          else none
        | [] => none
      else none
    | [] => none

/-- The starred tail `(?:\.\w+)*` of a dotted identifier, maximal munch. -/
def dotWordStar : Nat → List Char → (List Char × List Char)
  | 0, l => ([], l)
  | fuel + 1, l =>
    match l with
    | c1 :: c2 :: cs =>
      if c1 = '.' && isWordCh c2 then
        let w := takeWord cs
        let m := dotWordStar fuel w.2
        ('.' :: c2 :: (w.1 ++ m.1), m.2)
      else ([], l)
    | _ => ([], l)

/-- The group `[a-zA-Z_]\w*(?:\.\w+)*` of the variable-argument pattern. -/
def parseIdentDots (l : List Char) : Option (List Char × List Char) :=
  match l with
  | c :: cs =>
    if isAlphaCh c || c = '_' then
      let w := takeWord cs
      let m := dotWordStar (w.2.length + 1) w.2
      some (c :: (w.1 ++ m.1), m.2)
    else none
  | [] => none

/-- The reserved identifiers excluded from variable-reference patterns. -/
def reservedNames : List String := ["true", "false", "null", "undefined", "this"]

/-- The Python post-processing of one variable match: skip reserved names,
otherwise record a `variable:`-tagged pattern with no prefix. -/
def varPatterns (file name : String) : List DynPattern :=
  if name ∈ reservedNames then [] else [⟨"variable: " ++ name, none, file⟩]

/-- One match of `(?:\bi18n(?:ext)?\.)?\bt\s*\(\s*([a-zA-Z_]\w*(?:\.\w+)*)\s*[,)]`:
a bare (possibly dotted) identifier argument. -/
def matchVarCall (file : String) (prev : Option Char) (l : List Char) :
    Option (List DynPattern × Char × List Char) :=
  match matchTPrefix prev l with
  | none => none
  | some r =>
    match parseIdentDots r with
    | none => none
    | some (name, r2) =>
      match skipSpaces r2 with
      | c :: r3 =>
        if c = ',' || c = ')' then
          some (varPatterns file (String.mk name), c, r3)
        else none
      | [] => none

/-- `extract_dynamic_patterns` from the script: all template-prefix patterns
(in match order), followed by all variable-reference patterns. -/
def extract_dynamic_patterns (content : String) (filepath : String) : List DynPattern :=
  scanPrev (matchTemplate filepath) (content.data.length + 1) none content.data ++
    scanPrev (matchVarCall filepath) (content.data.length + 1) none content.data

/-! ## Deep scan for quoted dot-notation strings -/

/-- The starred tail `(?:\.[a-zA-Z][a-zA-Z0-9]*)+` of a dot-notation string
(maximal munch), also counting the number of segments consumed. -/
def dotAlnumStar : Nat → List Char → (List Char × List Char × Nat)
  | 0, l => ([], l, 0)
  | fuel + 1, l =>
    match l with
    | c1 :: c2 :: cs =>
      if c1 = '.' && isAlphaCh c2 then
        let w := takeAlnum cs
        let m := dotAlnumStar fuel w.2
        ('.' :: c2 :: (w.1 ++ m.1), m.2.1, m.2.2 + 1)
      else ([], l, 0)
    | _ => ([], l, 0)

/-- The body of a quoted dot-notation string
`[a-zA-Z][a-zA-Z0-9]*(?:\.[a-zA-Z][a-zA-Z0-9]*)+` followed by its closing
quote, positioned just after the opening quote. -/
def matchDotPath (l : List Char) : Option (List Char × List Char) :=
  match l with
  | c :: cs =>
    if isAlphaCh c then
      let w := takeAlnum cs
      let m := dotAlnumStar (w.2.length + 1) w.2
      if m.2.2 = 0 then none
      else
        match m.2.1 with
        | q :: r3 => if isQuote2 q then some (c :: (w.1 ++ m.1), r3) else none
        | [] => none
    else none
  | [] => none

/-- One match of `['"]([a-zA-Z][a-zA-Z0-9]*(?:\.[a-zA-Z][a-zA-Z0-9]*)+)['"]`. -/
def matchQuotedDotPath (l : List Char) : Option (String × List Char) :=
  match l with
  | q :: r =>
    if isQuote2 q then
      match matchDotPath r with
      | some (path, rest) => some (String.mk path, rest)
      | none => none
    else none
  | [] => none

/-- All quoted dot-notation strings of the content, in `finditer` order. -/
def findDotPathStrings (content : String) : List String :=
  scanWith matchQuotedDotPath (content.data.length + 1) content.data

/-! ## The pipeline (`main`) -/

/-- A candidate source file: its path, its path relative to the repository
root (`os.path.relpath` is external, so it is carried as data), and its
content — `none` models a file whose `open`/`read` raises. -/
structure SrcFile where
  path : String
  rel : String
  content : Option String
  deriving DecidableEq

/-- `is_test_file` from the script: case-insensitive path-substring test
against the fixed indicator set. -/
def TEST_INDICATORS : List String := ["test", "__tests__", ".test.", ".spec.", "__mocks__"]

def is_test_file (rel_path : String) : Bool :=
  TEST_INDICATORS.any (fun ind => strContainsSub (strLower rel_path) ind)

/-- The locale-document skip applied in both scanning loops:
`"/locales/" in filepath and filepath.endswith(".json")`. -/
def localeSkip (filepath : String) : Bool :=
  strContainsSub filepath "/locales/" && strEndsWith filepath ".json"

/-- Add `rel` to the evidence set of `key` (`key_usage_locations[key].add`). -/
def updateLoc (locs : String → List String) (key rel : String) : String → List String :=
  fun k => if k = key then setAdd (locs k) rel else locs k

/-- The accumulated state of the phase-1 loop of `main`. -/
structure Phase1 where
  used_keys : List String
  key_usage_locations : String → List String
  dynamic_patterns : List DynPattern

/-- The body of `for key in keys_found`: add the key to the used set and
its evidence set. -/
def addKeyStep (rel : String) (p : List String × (String → List String))
    (key : String) : List String × (String → List String) :=
  (setAdd p.1 key, updateLoc p.2 key rel)

/-- The phase-1 loop body for one source file: skip unreadable files and
locale documents, add every directly extracted key with its evidence, and
append the file's dynamic patterns. -/
def processFile (acc : Phase1) (f : SrcFile) : Phase1 :=
  match f.content with
  | none => acc
  | some content =>
    if localeSkip f.path then acc
    else
      let p := (extract_t_calls content).foldl (addKeyStep f.rel)
        (acc.used_keys, acc.key_usage_locations)
      ⟨p.1, p.2, acc.dynamic_patterns ++ extract_dynamic_patterns content f.rel⟩

/-- Phase 1 of `main`: direct references and dynamic patterns. -/
def phase1 (source_files : List SrcFile) : Phase1 :=
  source_files.foldl processFile ⟨[], fun _ => [], []⟩

/-- The inner loop body of `deep_scan_string_literals` for one candidate
string: a hit on the supplied key set is recovered with its evidence. -/
def deepStep (defined_keys_set : List String) (rel : String)
    (acc : List String × (String → List String)) (key : String) :
    List String × (String → List String) :=
  if key ∈ defined_keys_set then (setAdd acc.1 key, updateLoc acc.2 key rel) else acc

/-- `deep_scan_string_literals` from the script: match every quoted
dot-notation string of every readable non-locale file against the supplied
key set. -/
def deep_scan_string_literals (source_files : List SrcFile)
    (defined_keys_set : List String) : List String × (String → List String) :=
  source_files.foldl
    (fun acc f =>
      match f.content with
      | none => acc
      | some content =>
        if localeSkip f.path then acc
        else (findDotPathStrings content).foldl (deepStep defined_keys_set f.rel) acc)
    ([], fun _ => [])

/-! ## Classification -/

/-- Entry of the `used` map: leaf value plus sorted evidence list. -/
structure UsedEntry where
  value : String
  locations : List String
  deriving DecidableEq

/-- Entry of the `possibly_dynamic` map. -/
structure DynEntry where
  value : String
  matched_pattern : String
  pattern_file : String
  deriving DecidableEq

/-- Entry of the `unused` map. -/
structure UnusedEntry where
  value : String
  deriving DecidableEq

/-- Insert into a sorted list of strings. -/
def insertSorted (x : String) : List String → List String
  | [] => [x]
  | y :: ys => if strLe x y then x :: y :: ys else y :: insertSorted x ys

/-- Python `sorted` on a list of strings (insertion sort; for a total order
on strings the sorted rearrangement is unique, so this agrees with it). -/
def sortStrs : List String → List String
  | [] => []
  | x :: xs => insertSorted x (sortStrs xs)

/-- The first dynamic pattern whose prefix is truthy and starts the key
(the `for dp in dynamic_patterns: ... break` loop of the classifier). -/
def matchedPattern (dps : List DynPattern) (key : String) : Option DynPattern :=
  dps.find? (fun dp =>
    match dp.pfx with
    | some p => !(p == "") && strStartsWith key p
    | none => false)

/-- The `used` entry built for a directly referenced key. -/
def usedEntry (locs : String → List String) (key value : String) : UsedEntry :=
  ⟨value, sortStrs (locs key)⟩

/-- The `possibly_dynamic` entry built for a deep-scan hit. -/
def deepEntry (dl : String → List String) (key value : String) : DynEntry :=
  ⟨value, "string literal reference in source", String.intercalate ", " (sortStrs (dl key))⟩

/-- The `possibly_dynamic` entry built for a template-prefix match. -/
def pfxEntry (dp : DynPattern) (value : String) : DynEntry :=
  ⟨value, dp.pattern, dp.file⟩

/-- One iteration of the classification loop of `main` (lines 194–224). -/
def classifyStep (uk : List String) (locs : String → List String)
    (dr : List String) (dl : String → List String) (dps : List DynPattern)
    (acc : List (String × UsedEntry) × List (String × DynEntry) × List (String × UnusedEntry))
    (kv : String × String) :
    List (String × UsedEntry) × List (String × DynEntry) × List (String × UnusedEntry) :=
  if kv.1 ∈ uk then
    (acc.1 ++ [(kv.1, usedEntry locs kv.1 kv.2)], acc.2.1, acc.2.2)
  else if kv.1 ∈ dr then
    (acc.1, acc.2.1 ++ [(kv.1, deepEntry dl kv.1 kv.2)], acc.2.2)
  else
    match matchedPattern dps kv.1 with
    | some dp => (acc.1, acc.2.1 ++ [(kv.1, pfxEntry dp kv.2)], acc.2.2)
    | none => (acc.1, acc.2.1, acc.2.2 ++ [(kv.1, ⟨kv.2⟩)])

/-- The classification loop of `main`: distribute every defined key over the
three buckets. -/
def classifyAll (all_keys : List (String × String)) (uk : List String)
    (locs : String → List String) (dr : List String) (dl : String → List String)
    (dps : List DynPattern) :
    List (String × UsedEntry) × List (String × DynEntry) × List (String × UnusedEntry) :=
  all_keys.foldl (classifyStep uk locs dr dl dps) ([], [], [])

/-! ## The report -/

/-- The analysis report (the `result` dict of `main`, without the wall-clock
timestamp, which is external). -/
structure Report where
  total_defined : Nat
  used_count : Nat
  possibly_dynamic_count : Nat
  unused_count : Nat
  test_only_count : Nat
  used : List (String × UsedEntry)
  possibly_dynamic : List (String × DynEntry)
  unused : List (String × UnusedEntry)
  test_only_keys : List String
  dynamic_patterns : List DynPattern
  deriving DecidableEq

/-- The flat key universe of a document (`all_keys` in `main`). -/
def allKeys (en_data : KeyDoc) : List (String × String) :=
  flatten_keys en_data ""

/-- `defined_keys_set` in `main`. -/
def definedKeys (en_data : KeyDoc) : List String :=
  (allKeys en_data).map Prod.fst

/-- `remaining_keys = defined_keys_set - used_keys` in `main`. -/
def remainingKeys (en_data : KeyDoc) (source_files : List SrcFile) : List String :=
  (definedKeys en_data).filter (fun k => decide (k ∉ (phase1 source_files).used_keys))

/-- The deep-scan result of the run (`deep_recovered, deep_locations`). -/
def deepPhase (en_data : KeyDoc) (source_files : List SrcFile) :
    List String × (String → List String) :=
  deep_scan_string_literals source_files (remainingKeys en_data source_files)

/-- `main` with the collected dynamic-pattern list abstracted, so that the
influence of the pattern list on the outputs can be stated; `main` itself
instantiates `dps` with the phase-1 patterns. -/
def mainWith (en_data : KeyDoc) (source_files : List SrcFile)
    (dps : List DynPattern) : Report :=
  let all_keys := allKeys en_data
  let p1 := phase1 source_files
  let deep := deepPhase en_data source_files
  let c := classifyAll all_keys p1.used_keys p1.key_usage_locations deep.1 deep.2 dps
  let test_only := (c.1.map Prod.fst).filter
    (fun key => (p1.key_usage_locations key).all is_test_file)
  { total_defined := all_keys.length
    used_count := c.1.length
    possibly_dynamic_count := c.2.1.length
    unused_count := c.2.2.length
    test_only_count := test_only.length
    used := c.1
    possibly_dynamic := c.2.1
    unused := c.2.2
    test_only_keys := sortStrs test_only
    dynamic_patterns := dps }

/-- `main` from the script: the full analysis of a key document against a
list of candidate source files. -/
def main (en_data : KeyDoc) (source_files : List SrcFile) : Report :=
  mainWith en_data source_files (phase1 source_files).dynamic_patterns

/-! ## Lemmas: set and evidence accumulation -/

theorem mem_setAdd {s : List String} {x y : String} :
    y ∈ setAdd s x ↔ y ∈ s ∨ y = x := by
  unfold setAdd
  by_cases h : x ∈ s
  · simp only [if_pos h]
    exact ⟨Or.inl, fun hy => hy.elim id (fun e => e ▸ h)⟩
  · simp [if_neg h]

theorem mem_updateLoc {locs : String → List String} {key rel k p : String} :
    p ∈ updateLoc locs key rel k ↔ p ∈ locs k ∨ (k = key ∧ p = rel) := by
  unfold updateLoc
  by_cases h : k = key
  · subst h; simp [mem_setAdd]
  · simp [h]

theorem addKeys_fst {rel : String} {keys : List String}
    {p0 : List String × (String → List String)} {x : String} :
    x ∈ (keys.foldl (addKeyStep rel) p0).1 ↔ x ∈ p0.1 ∨ x ∈ keys := by
  induction keys generalizing p0 with
  | nil => simp
  | cons k ks ih =>
    simp only [List.foldl_cons, ih, addKeyStep, mem_setAdd, List.mem_cons]
    tauto

theorem addKeys_snd {rel : String} {keys : List String}
    {p0 : List String × (String → List String)} {k p : String} :
    p ∈ (keys.foldl (addKeyStep rel) p0).2 k ↔
      p ∈ p0.2 k ∨ (k ∈ keys ∧ p = rel) := by
  induction keys generalizing p0 with
  | nil => simp
  | cons key ks ih =>
    simp only [List.foldl_cons, ih, addKeyStep, mem_updateLoc, List.mem_cons]
    tauto

/-! ## Lemmas: phase-1 characterization -/

/-- The direct scan finds `key` in file `f`: the file is readable, is not a
locale document, and one of the three patterns extracts the key. -/
def fileFinds (f : SrcFile) (key : String) : Prop :=
  ∃ c, f.content = some c ∧ localeSkip f.path = false ∧ key ∈ extract_t_calls c

theorem mem_processFile_used {acc : Phase1} {f : SrcFile} {key : String} :
    key ∈ (processFile acc f).used_keys ↔ key ∈ acc.used_keys ∨ fileFinds f key := by
  cases hc : f.content with
  | none => simp [processFile, hc, fileFinds]
  | some c =>
    by_cases hs : localeSkip f.path = true
    · simp [processFile, hc, hs, fileFinds]
    · simp [processFile, hc, hs, fileFinds, addKeys_fst,
        Bool.not_eq_true (localeSkip f.path) ▸ hs]

theorem mem_processFile_loc {acc : Phase1} {f : SrcFile} {key p : String} :
    p ∈ (processFile acc f).key_usage_locations key ↔
      p ∈ acc.key_usage_locations key ∨ (fileFinds f key ∧ p = f.rel) := by
  cases hc : f.content with
  | none => simp [processFile, hc, fileFinds]
  | some c =>
    by_cases hs : localeSkip f.path = true
    · simp [processFile, hc, hs, fileFinds]
    · simp [processFile, hc, hs, fileFinds, addKeys_snd]

theorem mem_foldl_processFile_used {files : List SrcFile} {acc : Phase1} {key : String} :
    key ∈ (files.foldl processFile acc).used_keys ↔
      key ∈ acc.used_keys ∨ ∃ f ∈ files, fileFinds f key := by
  induction files generalizing acc with
  | nil => simp
  | cons f fs ih =>
    simp only [List.foldl_cons, ih, mem_processFile_used, List.mem_cons,
      exists_eq_or_imp]
    tauto

theorem mem_foldl_processFile_loc {files : List SrcFile} {acc : Phase1} {key p : String} :
    p ∈ (files.foldl processFile acc).key_usage_locations key ↔
      p ∈ acc.key_usage_locations key ∨ ∃ f ∈ files, fileFinds f key ∧ p = f.rel := by
  induction files generalizing acc with
  | nil => simp
  | cons f fs ih =>
    simp only [List.foldl_cons, ih, mem_processFile_loc, List.mem_cons,
      exists_eq_or_imp]
    tauto

theorem mem_phase1_used {files : List SrcFile} {key : String} :
    key ∈ (phase1 files).used_keys ↔ ∃ f ∈ files, fileFinds f key := by
  simpa [phase1] using
    (@mem_foldl_processFile_used files ⟨[], fun _ => [], []⟩ key)

theorem mem_phase1_loc {files : List SrcFile} {key p : String} :
    p ∈ (phase1 files).key_usage_locations key ↔
      ∃ f ∈ files, fileFinds f key ∧ p = f.rel := by
  simpa [phase1] using
    (@mem_foldl_processFile_loc files ⟨[], fun _ => [], []⟩ key p)

/-! ## Lemmas: deep-scan characterization -/

/-- The deep scan finds the candidate string `key` in file `f`. -/
def fileDeepFinds (f : SrcFile) (key : String) : Prop :=
  ∃ c, f.content = some c ∧ localeSkip f.path = false ∧ key ∈ findDotPathStrings c

theorem mem_deepStep_fst {ks : List String} {rel : String}
    {acc : List String × (String → List String)} {paths : List String} {x : String} :
    x ∈ (paths.foldl (deepStep ks rel) acc).1 ↔
      x ∈ acc.1 ∨ (x ∈ paths ∧ x ∈ ks) := by
  induction paths generalizing acc with
  | nil => simp
  | cons q qs ih =>
    by_cases hq : q ∈ ks
    · simp only [List.foldl_cons, ih, deepStep, if_pos hq, mem_setAdd, List.mem_cons]
      constructor
      · rintro ((h | rfl) | ⟨h1, h2⟩)
        · exact Or.inl h
        · exact Or.inr ⟨Or.inl rfl, hq⟩
        · exact Or.inr ⟨Or.inr h1, h2⟩
      · rintro (h | ⟨(rfl | h1), h2⟩)
        · exact Or.inl (Or.inl h)
        · exact Or.inl (Or.inr rfl)
        · exact Or.inr ⟨h1, h2⟩
    · simp only [List.foldl_cons, ih, deepStep, if_neg hq, List.mem_cons]
      constructor
      · rintro (h | ⟨h1, h2⟩)
        · exact Or.inl h
        · exact Or.inr ⟨Or.inr h1, h2⟩
      · rintro (h | ⟨(rfl | h1), h2⟩)
        · exact Or.inl h
        · exact absurd h2 hq
        · exact Or.inr ⟨h1, h2⟩

theorem mem_deepStep_snd {ks : List String} {rel : String}
    {acc : List String × (String → List String)} {paths : List String} {k p : String} :
    p ∈ (paths.foldl (deepStep ks rel) acc).2 k ↔
      p ∈ acc.2 k ∨ (k ∈ paths ∧ k ∈ ks ∧ p = rel) := by
  induction paths generalizing acc with
  | nil => simp
  | cons q qs ih =>
    by_cases hq : q ∈ ks
    · simp only [List.foldl_cons, ih, deepStep, if_pos hq, mem_updateLoc, List.mem_cons]
      constructor
      · rintro ((h | ⟨rfl, rfl⟩) | ⟨h1, h2, h3⟩)
        · exact Or.inl h
        · exact Or.inr ⟨Or.inl rfl, hq, rfl⟩
        · exact Or.inr ⟨Or.inr h1, h2, h3⟩
      · rintro (h | ⟨(rfl | h1), h2, h3⟩)
        · exact Or.inl (Or.inl h)
        · exact Or.inl (Or.inr ⟨rfl, h3⟩)
        · exact Or.inr ⟨h1, h2, h3⟩
    · simp only [List.foldl_cons, ih, deepStep, if_neg hq, List.mem_cons]
      constructor
      · rintro (h | ⟨h1, h2, h3⟩)
        · exact Or.inl h
        · exact Or.inr ⟨Or.inr h1, h2, h3⟩
      · rintro (h | ⟨(rfl | h1), h2, h3⟩)
        · exact Or.inl h
        · exact absurd h2 hq
        · exact Or.inr ⟨h1, h2, h3⟩

theorem mem_deep_scan_fst {files : List SrcFile} {ks : List String} {key : String} :
    key ∈ (deep_scan_string_literals files ks).1 ↔
      (∃ f ∈ files, fileDeepFinds f key) ∧ key ∈ ks := by
  suffices h : ∀ (acc : List String × (String → List String)),
      key ∈ (files.foldl
        (fun acc f =>
          match f.content with
          | none => acc
          | some content =>
            if localeSkip f.path then acc
            else (findDotPathStrings content).foldl (deepStep ks f.rel) acc) acc).1 ↔
        key ∈ acc.1 ∨ ((∃ f ∈ files, fileDeepFinds f key) ∧ key ∈ ks) by
    simpa [deep_scan_string_literals] using h ([], fun _ => [])
  intro acc
  induction files generalizing acc with
  | nil => simp
  | cons f fs ih =>
    have hstep : ∀ acc', key ∈ (match f.content with
        | none => acc'
        | some content =>
          if localeSkip f.path then acc'
          else (findDotPathStrings content).foldl (deepStep ks f.rel) acc' :
          List String × (String → List String)).1 ↔
        key ∈ acc'.1 ∨ (fileDeepFinds f key ∧ key ∈ ks) := by
      intro acc'
      cases hc : f.content with
      | none => simp [fileDeepFinds, hc]
      | some c =>
        by_cases hs : localeSkip f.path = true
        · simp [fileDeepFinds, hc, hs]
        · simp [fileDeepFinds, hc, hs, mem_deepStep_fst]
    simp only [List.foldl_cons, ih, hstep, List.mem_cons, exists_eq_or_imp]
    tauto

theorem mem_deep_scan_snd {files : List SrcFile} {ks : List String} {key p : String} :
    p ∈ (deep_scan_string_literals files ks).2 key ↔
      key ∈ ks ∧ ∃ f ∈ files, fileDeepFinds f key ∧ p = f.rel := by
  suffices h : ∀ (acc : List String × (String → List String)),
      p ∈ (files.foldl
        (fun acc f =>
          match f.content with
          | none => acc
          | some content =>
            if localeSkip f.path then acc
            else (findDotPathStrings content).foldl (deepStep ks f.rel) acc) acc).2 key ↔
        p ∈ acc.2 key ∨ (key ∈ ks ∧ ∃ f ∈ files, fileDeepFinds f key ∧ p = f.rel) by
    simpa [deep_scan_string_literals] using h ([], fun _ => [])
  intro acc
  induction files generalizing acc with
  | nil => simp
  | cons f fs ih =>
    have hstep : ∀ acc', p ∈ (match f.content with
        | none => acc'
        | some content =>
          if localeSkip f.path then acc'
          else (findDotPathStrings content).foldl (deepStep ks f.rel) acc' :
          List String × (String → List String)).2 key ↔
        p ∈ acc'.2 key ∨ (key ∈ ks ∧ fileDeepFinds f key ∧ p = f.rel) := by
      intro acc'
      cases hc : f.content with
      | none => simp [fileDeepFinds, hc]
      | some c =>
        by_cases hs : localeSkip f.path = true
        · simp [fileDeepFinds, hc, hs]
        · simp [fileDeepFinds, hc, hs, mem_deepStep_snd]
          tauto
    simp only [List.foldl_cons, ih, hstep, List.mem_cons, exists_eq_or_imp]
    tauto

/-! ## Lemmas: the classification loop as three filters -/

/-- What the classification loop contributes to `used` for one key. -/
def usedSel (uk : List String) (locs : String → List String)
    (kv : String × String) : Option (String × UsedEntry) :=
  if kv.1 ∈ uk then some (kv.1, usedEntry locs kv.1 kv.2) else none

/-- What the classification loop contributes to `possibly_dynamic` for one key. -/
def pdSel (uk dr : List String) (dl : String → List String)
    (dps : List DynPattern) (kv : String × String) : Option (String × DynEntry) :=
  if kv.1 ∈ uk then none
  else if kv.1 ∈ dr then some (kv.1, deepEntry dl kv.1 kv.2)
  else
    match matchedPattern dps kv.1 with
    | some dp => some (kv.1, pfxEntry dp kv.2)
    | none => none

/-- What the classification loop contributes to `unused` for one key. -/
def unusedSel (uk dr : List String) (dps : List DynPattern)
    (kv : String × String) : Option (String × UnusedEntry) :=
  if kv.1 ∈ uk then none
  else if kv.1 ∈ dr then none
  else
    match matchedPattern dps kv.1 with
    | some _ => none
    | none => some (kv.1, ⟨kv.2⟩)

theorem classify_fold_eq {all : List (String × String)} {uk : List String}
    {locs : String → List String} {dr : List String} {dl : String → List String}
    {dps : List DynPattern}
    {acc : List (String × UsedEntry) × List (String × DynEntry) × List (String × UnusedEntry)} :
    all.foldl (classifyStep uk locs dr dl dps) acc =
      (acc.1 ++ all.filterMap (usedSel uk locs),
       acc.2.1 ++ all.filterMap (pdSel uk dr dl dps),
       acc.2.2 ++ all.filterMap (unusedSel uk dr dps)) := by
  induction all generalizing acc with
  | nil => simp
  | cons kv rest ih =>
    simp only [List.foldl_cons, List.filterMap_cons, ih, classifyStep, usedSel, pdSel, unusedSel]
    by_cases h1 : kv.1 ∈ uk
    · simp [h1]
    · by_cases h2 : kv.1 ∈ dr
      · simp [h1, h2]
      · cases hm : matchedPattern dps kv.1 with
        | some dp => simp [h1, h2, hm]
        | none => simp [h1, h2, hm]

theorem classifyAll_eq {all : List (String × String)} {uk : List String}
    {locs : String → List String} {dr : List String} {dl : String → List String}
    {dps : List DynPattern} :
    classifyAll all uk locs dr dl dps =
      (all.filterMap (usedSel uk locs),
       all.filterMap (pdSel uk dr dl dps),
       all.filterMap (unusedSel uk dr dps)) := by
  simpa [classifyAll] using
    (@classify_fold_eq all uk locs dr dl dps ([], [], []))

theorem usedSel_eq_some {uk : List String} {locs : String → List String}
    {kv : String × String} {x : String × UsedEntry} :
    usedSel uk locs kv = some x ↔
      kv.1 ∈ uk ∧ x = (kv.1, usedEntry locs kv.1 kv.2) := by
  unfold usedSel
  by_cases h : kv.1 ∈ uk <;> simp [h, eq_comm]

theorem pdSel_eq_some {uk dr : List String} {dl : String → List String}
    {dps : List DynPattern} {kv : String × String} {x : String × DynEntry} :
    pdSel uk dr dl dps kv = some x ↔
      kv.1 ∉ uk ∧ ((kv.1 ∈ dr ∧ x = (kv.1, deepEntry dl kv.1 kv.2)) ∨
        (kv.1 ∉ dr ∧ ∃ dp, matchedPattern dps kv.1 = some dp ∧ x = (kv.1, pfxEntry dp kv.2))) := by
  unfold pdSel
  by_cases h1 : kv.1 ∈ uk
  · simp [h1]
  · by_cases h2 : kv.1 ∈ dr
    · simp [h1, h2, eq_comm]
    · cases hm : matchedPattern dps kv.1 with
      | some dp => simp [h1, h2, hm, eq_comm]
      | none => simp [h1, h2, hm]

theorem unusedSel_eq_some {uk dr : List String} {dps : List DynPattern}
    {kv : String × String} {x : String × UnusedEntry} :
    unusedSel uk dr dps kv = some x ↔
      kv.1 ∉ uk ∧ kv.1 ∉ dr ∧ matchedPattern dps kv.1 = none ∧ x = (kv.1, ⟨kv.2⟩) := by
  unfold unusedSel
  by_cases h1 : kv.1 ∈ uk
  · simp [h1]
  · by_cases h2 : kv.1 ∈ dr
    · simp [h1, h2]
    · cases hm : matchedPattern dps kv.1 with
      | some dp => simp [h1, h2, hm]
      | none => simp [h1, h2, hm, eq_comm]

theorem mem_classify_used {all : List (String × String)} {uk : List String}
    {locs : String → List String} {key : String} :
    key ∈ (all.filterMap (usedSel uk locs)).map Prod.fst ↔
      key ∈ all.map Prod.fst ∧ key ∈ uk := by
  simp only [List.mem_map, List.mem_filterMap, usedSel_eq_some]
  constructor
  · rintro ⟨x, ⟨kv, hkv, hin, rfl⟩, rfl⟩
    exact ⟨⟨kv, hkv, rfl⟩, hin⟩
  · rintro ⟨⟨kv, hkv, rfl⟩, hin⟩
    exact ⟨(kv.1, usedEntry locs kv.1 kv.2), ⟨kv, hkv, hin, rfl⟩, rfl⟩

theorem mem_classify_pd {all : List (String × String)} {uk dr : List String}
    {dl : String → List String} {dps : List DynPattern} {key : String} :
    key ∈ (all.filterMap (pdSel uk dr dl dps)).map Prod.fst ↔
      key ∈ all.map Prod.fst ∧ key ∉ uk ∧
        (key ∈ dr ∨ (key ∉ dr ∧ (matchedPattern dps key).isSome)) := by
  simp only [List.mem_map, List.mem_filterMap, pdSel_eq_some]
  constructor
  · rintro ⟨x, ⟨kv, hkv, hnuk, h⟩, rfl⟩
    rcases h with ⟨hdr, rfl⟩ | ⟨hndr, dp, hm, rfl⟩
    · exact ⟨⟨kv, hkv, rfl⟩, hnuk, Or.inl hdr⟩
    · exact ⟨⟨kv, hkv, rfl⟩, hnuk, Or.inr ⟨hndr, by simp [hm]⟩⟩
  · rintro ⟨⟨kv, hkv, rfl⟩, hnuk, h⟩
    rcases h with hdr | ⟨hndr, hsome⟩
    · exact ⟨(kv.1, deepEntry dl kv.1 kv.2), ⟨kv, hkv, hnuk, Or.inl ⟨hdr, rfl⟩⟩, rfl⟩
    · rcases Option.isSome_iff_exists.mp hsome with ⟨dp, hm⟩
      exact ⟨(kv.1, pfxEntry dp kv.2), ⟨kv, hkv, hnuk, Or.inr ⟨hndr, dp, hm, rfl⟩⟩, rfl⟩

theorem mem_classify_unused {all : List (String × String)} {uk dr : List String}
    {dps : List DynPattern} {key : String} :
    key ∈ (all.filterMap (unusedSel uk dr dps)).map Prod.fst ↔
      key ∈ all.map Prod.fst ∧ key ∉ uk ∧ key ∉ dr ∧ matchedPattern dps key = none := by
  simp only [List.mem_map, List.mem_filterMap, unusedSel_eq_some]
  constructor
  · rintro ⟨x, ⟨kv, hkv, hnuk, hndr, hm, rfl⟩, rfl⟩
    exact ⟨⟨kv, hkv, rfl⟩, hnuk, hndr, hm⟩
  · rintro ⟨⟨kv, hkv, rfl⟩, hnuk, hndr, hm⟩
    exact ⟨(kv.1, ⟨kv.2⟩), ⟨kv, hkv, hnuk, hndr, hm, rfl⟩, rfl⟩

theorem classify_lengths {all : List (String × String)} {uk : List String}
    {locs : String → List String} {dr : List String} {dl : String → List String}
    {dps : List DynPattern} :
    (all.filterMap (usedSel uk locs)).length +
      (all.filterMap (pdSel uk dr dl dps)).length +
        (all.filterMap (unusedSel uk dr dps)).length = all.length := by
  induction all with
  | nil => simp
  | cons kv rest ih =>
    simp only [List.filterMap_cons, List.length_cons]
    by_cases h1 : kv.1 ∈ uk
    · simp only [usedSel, pdSel, unusedSel, if_pos h1, List.length_cons]
      omega
    · by_cases h2 : kv.1 ∈ dr
      · simp only [usedSel, pdSel, unusedSel, if_neg h1, if_pos h2, List.length_cons]
        omega
      · cases hm : matchedPattern dps kv.1 with
        | some dp =>
          simp only [usedSel, pdSel, unusedSel, if_neg h1, if_neg h2, hm, List.length_cons]
          omega
        | none =>
          simp only [usedSel, pdSel, unusedSel, if_neg h1, if_neg h2, hm, List.length_cons]
          omega

/-! ## Lemmas: sorting -/

theorem mem_insertSorted {x y : String} {l : List String} :
    y ∈ insertSorted x l ↔ y = x ∨ y ∈ l := by
  induction l with
  | nil => simp [insertSorted]
  | cons a as ih =>
    unfold insertSorted
    by_cases h : strLe x a = true
    · simp [h]
    · simp [h, ih]
      tauto

theorem mem_sortStrs {y : String} {l : List String} :
    y ∈ sortStrs l ↔ y ∈ l := by
  induction l with
  | nil => simp [sortStrs]
  | cons a as ih => simp [sortStrs, mem_insertSorted, ih]

/-! ## Lemmas: the run in terms of its pieces -/

theorem mem_remainingKeys {e : KeyDoc} {fs : List SrcFile} {key : String} :
    key ∈ remainingKeys e fs ↔
      key ∈ definedKeys e ∧ key ∉ (phase1 fs).used_keys := by
  simp [remainingKeys, List.mem_filter]

theorem mainWith_used {e : KeyDoc} {fs : List SrcFile} {dps : List DynPattern} :
    (mainWith e fs dps).used =
      (allKeys e).filterMap (usedSel (phase1 fs).used_keys (phase1 fs).key_usage_locations) := by
  simp only [mainWith, classifyAll_eq]

theorem mainWith_pd {e : KeyDoc} {fs : List SrcFile} {dps : List DynPattern} :
    (mainWith e fs dps).possibly_dynamic =
      (allKeys e).filterMap
        (pdSel (phase1 fs).used_keys (deepPhase e fs).1 (deepPhase e fs).2 dps) := by
  simp only [mainWith, classifyAll_eq]

theorem mainWith_unused {e : KeyDoc} {fs : List SrcFile} {dps : List DynPattern} :
    (mainWith e fs dps).unused =
      (allKeys e).filterMap
        (unusedSel (phase1 fs).used_keys (deepPhase e fs).1 dps) := by
  simp only [mainWith, classifyAll_eq]

theorem mainWith_test_only {e : KeyDoc} {fs : List SrcFile} {dps : List DynPattern} :
    (mainWith e fs dps).test_only_keys =
      sortStrs (((mainWith e fs dps).used.map Prod.fst).filter
        (fun key => ((phase1 fs).key_usage_locations key).all is_test_file)) := by
  simp only [mainWith]

/-! ## Lemmas: dictionaries and flattening -/

/-- The keys of the association list are pairwise distinct (true of every
model of a Python dict). -/
def keysNodup (d : List (String × String)) : Prop :=
  (d.map Prod.fst).Nodup

theorem dictLookup_cons {kv : String × String} {rest : List (String × String)} {key : String} :
    dictLookup (kv :: rest) key =
      if kv.1 = key then some kv.2 else dictLookup rest key := rfl

theorem dictLookup_eq_none {d : List (String × String)} {key : String} :
    dictLookup d key = none ↔ key ∉ d.map Prod.fst := by
  induction d with
  | nil => simp [dictLookup]
  | cons kv rest ih =>
    rw [dictLookup_cons]
    by_cases h : kv.1 = key
    · simp [h]
    · simp only [if_neg h, ih, List.map_cons, List.mem_cons]
      constructor
      · exact fun hn hk => hk.elim (fun e => h e.symm) hn
      · exact fun hn hk => hn (Or.inr hk)

theorem dictLookup_append {a b : List (String × String)} {key : String} :
    dictLookup (a ++ b) key =
      match dictLookup a key with
      | some w => some w
      | none => dictLookup b key := by
  induction a with
  | nil => simp [dictLookup]
  | cons kv rest ih =>
    rw [List.cons_append, dictLookup_cons, dictLookup_cons]
    by_cases h : kv.1 = key <;> simp [h, ih]

theorem dictLookup_map_replace {d : List (String × String)} {k v key : String}
    (h : k ∈ d.map Prod.fst) :
    dictLookup (d.map (fun p => if p.1 = k then (k, v) else p)) key =
      if key = k then some v else dictLookup d key := by
  induction d with
  | nil => simp at h
  | cons p rest ih =>
    by_cases hp : p.1 = k
    · simp only [List.map_cons, if_pos hp, dictLookup_cons]
      by_cases hk : key = k
      · simp [hk]
      · have h1 : ¬(k = key) := fun e => hk e.symm
        have h2 : ¬(p.1 = key) := fun e => hk (hp ▸ e).symm
        by_cases hmem : k ∈ rest.map Prod.fst
        · simp [h1, h2, ih hmem, hk]
        · have hid : rest.map (fun p => if p.1 = k then (k, v) else p) = rest := by
            conv_rhs => rw [show rest = rest.map id from (List.map_id rest).symm]
            apply List.map_congr_left
            intro q hq
            have hq' : ¬(q.1 = k) := fun e => hmem (e ▸ List.mem_map.mpr ⟨q, hq, rfl⟩)
            simp [hq']
          simp [h1, h2, hid, hk]
    · have hmem : k ∈ rest.map Prod.fst := by
        rcases List.mem_map.mp h with ⟨q, hq, hqk⟩
        rcases List.mem_cons.mp hq with rfl | hq'
        · exact absurd hqk hp
        · exact List.mem_map.mpr ⟨q, hq', hqk⟩
      simp only [List.map_cons, if_neg hp, dictLookup_cons]
      by_cases hpk : p.1 = key
      · have hne : ¬(key = k) := fun e => hp (hpk.symm ▸ e)
        simp [hpk, hne]
      · simp [hpk, ih hmem]

theorem dictLookup_dictInsert {d : List (String × String)} {k v key : String} :
    dictLookup (dictInsert d k v) key = if key = k then some v else dictLookup d key := by
  unfold dictInsert
  by_cases h : d.any (fun p => decide (p.1 = k)) = true
  · have hmem : k ∈ d.map Prod.fst := by
      rcases List.any_eq_true.mp h with ⟨p, hp, hpk⟩
      exact (of_decide_eq_true hpk) ▸ List.mem_map.mpr ⟨p, hp, rfl⟩
    simp [h, dictLookup_map_replace hmem]
  · have hmem : k ∉ d.map Prod.fst := by
      intro hk
      rcases List.mem_map.mp hk with ⟨p, hp, hpk⟩
      exact h (List.any_eq_true.mpr ⟨p, hp, decide_eq_true hpk⟩)
    simp only [h, Bool.false_eq_true, if_false, dictLookup_append]
    by_cases hk : key = k
    · subst hk
      simp [dictLookup_eq_none.mpr hmem, dictLookup]
    · cases hd : dictLookup d key with
      | some w => simp [hk]
      | none => simp [hk, dictLookup_cons, dictLookup, show ¬(k = key) from fun e => hk e.symm]

theorem lastLookup_cons {kv : String × String} {rest : List (String × String)} {key : String} :
    lastLookup (kv :: rest) key =
      match lastLookup rest key with
      | some v => some v
      | none => if kv.1 = key then some kv.2 else none := rfl

theorem dictLookup_dictUpdate {d other : List (String × String)} {key : String} :
    dictLookup (dictUpdate d other) key =
      match lastLookup other key with
      | some v => some v
      | none => dictLookup d key := by
  induction other generalizing d with
  | nil => simp [dictUpdate, lastLookup]
  | cons kv rest ih =>
    show dictLookup (dictUpdate (dictInsert d kv.1 kv.2) rest) key = _
    rw [ih, lastLookup_cons]
    cases lastLookup rest key with
    | some w => rfl
    | none =>
      simp only [dictLookup_dictInsert]
      by_cases hk : key = kv.1
      · simp [hk]
      · simp [hk, show ¬(kv.1 = key) from fun e => hk e.symm]

theorem keysNodup_dictInsert {d : List (String × String)} {k v : String}
    (h : keysNodup d) : keysNodup (dictInsert d k v) := by
  unfold dictInsert
  by_cases ha : d.any (fun p => decide (p.1 = k)) = true
  · have hfst : (d.map (fun p => if p.1 = k then (k, v) else p)).map Prod.fst = d.map Prod.fst := by
      rw [List.map_map]
      apply List.map_congr_left
      intro q _
      by_cases hq : q.1 = k
      · simp [hq]
      · simp [hq]
    simpa [keysNodup, ha, hfst] using h
  · have hmem : k ∉ d.map Prod.fst := by
      intro hk
      rcases List.mem_map.mp hk with ⟨p, hp, hpk⟩
      exact ha (List.any_eq_true.mpr ⟨p, hp, decide_eq_true hpk⟩)
    simp only [ha, Bool.false_eq_true, if_false, keysNodup, List.map_append]
    rw [List.nodup_append]
    refine ⟨h, List.nodup_singleton k, ?_⟩
    intro a hal har
    rcases List.mem_singleton.mp har with rfl
    exact hmem hal

theorem keysNodup_dictUpdate {d other : List (String × String)}
    (h : keysNodup d) : keysNodup (dictUpdate d other) := by
  induction other generalizing d with
  | nil => exact h
  | cons kv rest ih => exact ih (keysNodup_dictInsert h)

theorem keysNodup_flattenInto {doc : KeyDoc} {pfx : String}
    {keys : List (String × String)} (h : keysNodup keys) :
    keysNodup (flattenInto doc pfx keys) := by
  induction doc generalizing pfx keys with
  | nil => exact h
  | consLeaf k v rest ih => exact ih (keysNodup_dictInsert h)
  | consDict k sub rest ih_sub ih_rest => exact ih_rest (keysNodup_dictUpdate h)

theorem lastLookup_eq_dictLookup {l : List (String × String)} {key : String}
    (h : keysNodup l) : lastLookup l key = dictLookup l key := by
  induction l with
  | nil => rfl
  | cons kv rest ih =>
    have h1 : kv.1 ∉ rest.map Prod.fst := by
      simpa [keysNodup] using (List.nodup_cons.mp h).1
    have h2 : keysNodup rest := (List.nodup_cons.mp h).2
    rw [lastLookup_cons, ih h2, dictLookup_cons]
    by_cases hk : kv.1 = key
    · rw [dictLookup_eq_none.mpr (hk ▸ h1)]
    · cases dictLookup rest key with
      | some w => simp [hk]
      | none => simp [hk]

theorem flattenInto_lookup {doc : KeyDoc} {pfx key : String}
    {keys : List (String × String)} :
    dictLookup (flattenInto doc pfx keys) key =
      match lastLookup (leafPaths doc pfx) key with
      | some v => some v
      | none => dictLookup keys key := by
  induction doc generalizing pfx keys with
  | nil => simp [flattenInto, leafPaths, lastLookup]
  | consLeaf k v rest ih =>
    show dictLookup (flattenInto rest pfx (dictInsert keys (joinKey pfx k) (pyStr v))) key = _
    rw [ih]
    simp only [leafPaths, lastLookup_cons]
    cases lastLookup (leafPaths rest pfx) key with
    | some w => rfl
    | none =>
      simp only [dictLookup_dictInsert]
      by_cases hk : key = joinKey pfx k
      · simp [hk]
      · simp [hk, show ¬(joinKey pfx k = key) from fun e => hk e.symm]
  | consDict k sub rest ih_sub ih_rest =>
    show dictLookup (flattenInto rest pfx
      (dictUpdate keys (flattenInto sub (joinKey pfx k) []))) key = _
    rw [ih_rest]
    have hsub : lastLookup (flattenInto sub (joinKey pfx k) []) key =
        lastLookup (leafPaths sub (joinKey pfx k)) key := by
      rw [lastLookup_eq_dictLookup (keysNodup_flattenInto (by simp [keysNodup])), ih_sub]
      cases lastLookup (leafPaths sub (joinKey pfx k)) key with
      | some w => rfl
      | none => rfl
    have happ : ∀ a b : List (String × String), lastLookup (a ++ b) key =
        match lastLookup b key with
        | some v => some v
        | none => lastLookup a key := by
      intro a b
      induction a with
      | nil =>
        simp only [List.nil_append]
        cases lastLookup b key with
        | some w => rfl
        | none => rfl
      | cons kv arest iha =>
        simp only [List.cons_append, lastLookup_cons, iha]
        cases lastLookup b key with
        | some w => rfl
        | none =>
          cases lastLookup arest key with
          | some w => rfl
          | none => rfl
    simp only [leafPaths, happ]
    cases lastLookup (leafPaths rest pfx) key with
    | some w => rfl
    | none =>
      rw [dictLookup_dictUpdate, hsub]

/-! ## Lemmas: report fields of `main` -/

theorem main_used {e : KeyDoc} {fs : List SrcFile} :
    (main e fs).used =
      (allKeys e).filterMap (usedSel (phase1 fs).used_keys (phase1 fs).key_usage_locations) :=
  mainWith_used

theorem main_pd {e : KeyDoc} {fs : List SrcFile} :
    (main e fs).possibly_dynamic =
      (allKeys e).filterMap
        (pdSel (phase1 fs).used_keys (deepPhase e fs).1 (deepPhase e fs).2
          (phase1 fs).dynamic_patterns) :=
  mainWith_pd

theorem main_unused {e : KeyDoc} {fs : List SrcFile} :
    (main e fs).unused =
      (allKeys e).filterMap
        (unusedSel (phase1 fs).used_keys (deepPhase e fs).1 (phase1 fs).dynamic_patterns) :=
  mainWith_unused

theorem main_total {e : KeyDoc} {fs : List SrcFile} :
    (main e fs).total_defined = (allKeys e).length := rfl

theorem main_test_only {e : KeyDoc} {fs : List SrcFile} :
    (main e fs).test_only_keys =
      sortStrs (((main e fs).used.map Prod.fst).filter
        (fun key => ((phase1 fs).key_usage_locations key).all is_test_file)) :=
  mainWith_test_only

/-! ## The claims -/

/-- C1: for every key document and every list of source files, the
classification is a partition of the flattened key universe — each defined
key appears in exactly one of the `used`, `possibly_dynamic` and `unused`
maps, and the sizes of the three maps sum to the total defined key count. -/
theorem classification_partition (doc : KeyDoc) (files : List SrcFile) :
    ((main doc files).used.length + (main doc files).possibly_dynamic.length +
        (main doc files).unused.length = (main doc files).total_defined) ∧
    ∀ key, key ∈ definedKeys doc →
      ((key ∈ (main doc files).used.map Prod.fst ∧
          key ∉ (main doc files).possibly_dynamic.map Prod.fst ∧
          key ∉ (main doc files).unused.map Prod.fst) ∨
        (key ∉ (main doc files).used.map Prod.fst ∧
          key ∈ (main doc files).possibly_dynamic.map Prod.fst ∧
          key ∉ (main doc files).unused.map Prod.fst) ∨
        (key ∉ (main doc files).used.map Prod.fst ∧
          key ∉ (main doc files).possibly_dynamic.map Prod.fst ∧
          key ∈ (main doc files).unused.map Prod.fst)) := by
  constructor
  · rw [main_used, main_pd, main_unused, main_total]
    exact classify_lengths
  · intro key hdef
    rw [main_used, main_pd, main_unused]
    rw [mem_classify_used, mem_classify_pd, mem_classify_unused]
    have hd : key ∈ (allKeys doc).map Prod.fst := hdef
    by_cases h1 : key ∈ (phase1 files).used_keys
    · exact Or.inl ⟨⟨hd, h1⟩, fun h => h.2.1 h1, fun h => h.2.1 h1⟩
    · by_cases h2 : key ∈ (deepPhase doc files).1
      · exact Or.inr (Or.inl ⟨fun h => h1 h.2, ⟨hd, h1, Or.inl h2⟩,
          fun h => h.2.2.1 h2⟩)
      · cases hm : matchedPattern (phase1 files).dynamic_patterns key with
        | some dp =>
          refine Or.inr (Or.inl ⟨fun h => h1 h.2, ⟨hd, h1, Or.inr ⟨h2, rfl⟩⟩, ?_⟩)
          intro h
          exact Option.noConfusion h.2.2.2
        | none =>
          refine Or.inr (Or.inr ⟨fun h => h1 h.2, ?_, hd, h1, h2, rfl⟩)
          rintro ⟨-, -, (h | ⟨-, hs⟩)⟩
          · exact h2 h
          · exact Bool.noConfusion hs

/-- C2: a defined key found by the direct-reference scan is classified USED
and never POSSIBLY_DYNAMIC, even when a quoted dot-path string equal to the
key occurs in a source file — the deep scan only receives the complement of
the directly-used set (the key is not in `remaining_keys`, hence never deep
recovered), and the classifier checks direct evidence first. -/
theorem direct_scan_precedence (doc : KeyDoc) (files : List SrcFile) (key : String)
    (hdef : key ∈ definedKeys doc)
    (hdirect : key ∈ (phase1 files).used_keys) :
    key ∈ (main doc files).used.map Prod.fst ∧
    key ∉ (main doc files).possibly_dynamic.map Prod.fst ∧
    key ∉ remainingKeys doc files ∧
    key ∉ (deepPhase doc files).1 := by
  refine ⟨?_, ?_, ?_, ?_⟩
  · rw [main_used]
    exact mem_classify_used.mpr ⟨hdef, hdirect⟩
  · rw [main_pd]
    intro hmem
    exact (mem_classify_pd.mp hmem).2.1 hdirect
  · intro hmem
    exact (mem_remainingKeys.mp hmem).2 hdirect
  · intro hmem
    have := (mem_deep_scan_fst.mp hmem).2
    exact (mem_remainingKeys.mp this).2 hdirect

/-- C3: flattening maps each leaf to its dot-joined path with the
stringified leaf value, and when two distinct paths collapse to the same
dotted string the later one in iteration order wins — as a lookup function,
`flatten_keys` agrees with last-write-wins lookup over the leaf sequence
described by the specification (`leafPaths`). -/
theorem flatten_last_write_wins (doc : KeyDoc) (key : String) :
    dictLookup (flatten_keys doc "") key = lastLookup (leafPaths doc "") key := by
  rw [flatten_keys, flattenInto_lookup]
  cases lastLookup (leafPaths doc "") key with
  | some w => rfl
  | none => rfl

/-- C5: for every source file scanned in the deep phase (readable and not a
locale document) and every quoted dot-notation string of its text, a hit on
the remaining key set is added to the recovered set with the originating
file recorded as evidence. -/
theorem deep_scan_recovery (doc : KeyDoc) (files : List SrcFile) (f : SrcFile)
    (key : String) (hf : f ∈ files) (hfind : fileDeepFinds f key)
    (hrem : key ∈ remainingKeys doc files) :
    key ∈ (deepPhase doc files).1 ∧ f.rel ∈ (deepPhase doc files).2 key := by
  unfold deepPhase
  exact ⟨mem_deep_scan_fst.mpr ⟨⟨f, hf, hfind⟩, hrem⟩,
    mem_deep_scan_snd.mpr ⟨hrem, f, hf, hfind, rfl⟩⟩

/-- C6: a key is listed in the test-only set iff it is USED and every file
path in its usage-evidence set is recognized as a test file by the
case-insensitive path-substring heuristic — a subset marker of USED, not a
fourth bucket. -/
theorem test_only_characterization (doc : KeyDoc) (files : List SrcFile) (key : String) :
    key ∈ (main doc files).test_only_keys ↔
      key ∈ (main doc files).used.map Prod.fst ∧
        ∀ loc ∈ (phase1 files).key_usage_locations key, is_test_file loc = true := by
  rw [main_test_only, mem_sortStrs, List.mem_filter]
  simp [List.all_eq_true]

/-- C7: the usage-evidence set of a key equals the union, over all readable
source files, of the files in which the key is detected by the direct scan,
and permuting the order in which files are scanned leaves every evidence set
unchanged.  (The hypothesis that no candidate file is a locale document
reflects the walker, which only yields `.ts`/`.tsx`/`.js`/`.jsx` paths, so
the locale skip never fires.) -/
theorem evidence_union (files files' : List SrcFile) (key path : String)
    (hclean : ∀ f ∈ files, localeSkip f.path = false)
    (hperm : files.Perm files') :
    (path ∈ (phase1 files).key_usage_locations key ↔
      ∃ f ∈ files, f.rel = path ∧ ∃ c, f.content = some c ∧ key ∈ extract_t_calls c) ∧
    (path ∈ (phase1 files).key_usage_locations key ↔
      path ∈ (phase1 files').key_usage_locations key) := by
  constructor
  · rw [mem_phase1_loc]
    constructor
    · rintro ⟨f, hf, ⟨c, hc, -, hk⟩, rfl⟩
      exact ⟨f, hf, rfl, c, hc, hk⟩
    · rintro ⟨f, hf, rfl, c, hc, hk⟩
      exact ⟨f, hf, ⟨c, hc, hclean f hf, hk⟩, rfl⟩
  · rw [mem_phase1_loc, mem_phase1_loc]
    constructor
    · rintro ⟨f, hf, h⟩
      exact ⟨f, hperm.mem_iff.mp hf, h⟩
    · rintro ⟨f, hf, h⟩
      exact ⟨f, hperm.mem_iff.mpr hf, h⟩

/-- C8: a defined key classified UNUSED becomes USED once a file bearing a
direct literal reference is appended, and once a direct reference exists no
additional files can move the key back to UNUSED or POSSIBLY_DYNAMIC. -/
theorem direct_reference_monotonic (doc : KeyDoc) (files : List SrcFile)
    (g : SrcFile) (key c : String)
    (hdef : key ∈ definedKeys doc)
    (hunused : key ∈ (main doc files).unused.map Prod.fst)
    (hg : g.content = some c) (hskip : localeSkip g.path = false)
    (hkey : key ∈ extract_t_calls c) :
    key ∈ (main doc (files ++ [g])).used.map Prod.fst ∧
    ∀ extra : List SrcFile,
      key ∈ (main doc (files ++ [g] ++ extra)).used.map Prod.fst ∧
      key ∉ (main doc (files ++ [g] ++ extra)).possibly_dynamic.map Prod.fst ∧
      key ∉ (main doc (files ++ [g] ++ extra)).unused.map Prod.fst := by
  have huse : ∀ L : List SrcFile, g ∈ L →
      key ∈ (main doc L).used.map Prod.fst ∧
      key ∉ (main doc L).possibly_dynamic.map Prod.fst ∧
      key ∉ (main doc L).unused.map Prod.fst := by
    intro L hgL
    have huk : key ∈ (phase1 L).used_keys :=
      mem_phase1_used.mpr ⟨g, hgL, c, hg, hskip, hkey⟩
    refine ⟨?_, ?_, ?_⟩
    · rw [main_used]
      exact mem_classify_used.mpr ⟨hdef, huk⟩
    · rw [main_pd]
      intro hm
      exact (mem_classify_pd.mp hm).2.1 huk
    · rw [main_unused]
      intro hm
      exact (mem_classify_unused.mp hm).2.1 huk
  exact ⟨(huse (files ++ [g]) (by simp)).1,
    fun extra => huse (files ++ [g] ++ extra) (by simp)⟩

/-- An unreadable file leaves the phase-1 fold unchanged. -/
theorem processFile_skip {acc : Phase1} {f : SrcFile} (h : f.content = none) :
    processFile acc f = acc := by
  unfold processFile
  rw [h]

theorem phase1_skip {pre post : List SrcFile} {f : SrcFile} (h : f.content = none) :
    phase1 (pre ++ f :: post) = phase1 (pre ++ post) := by
  unfold phase1
  rw [List.foldl_append, List.foldl_append, List.foldl_cons, processFile_skip h]

theorem deep_scan_skip {pre post : List SrcFile} {f : SrcFile} {ks : List String}
    (h : f.content = none) :
    deep_scan_string_literals (pre ++ f :: post) ks =
      deep_scan_string_literals (pre ++ post) ks := by
  unfold deep_scan_string_literals
  rw [List.foldl_append, List.foldl_append, List.foldl_cons]
  congr 1
  show (match f.content with
    | none => _
    | some content => _ : List String × (String → List String)) = _
  rw [h]

/-- C9: a source file whose read or decode raises an error does not abort
the run — it contributes no evidence and no patterns in either scanning
phase, and the report equals the report computed over the remaining files. -/
theorem skipped_file_no_effect (doc : KeyDoc) (pre post : List SrcFile) (f : SrcFile)
    (h : f.content = none) :
    main doc (pre ++ f :: post) = main doc (pre ++ post) := by
  have h1 : phase1 (pre ++ f :: post) = phase1 (pre ++ post) := phase1_skip h
  unfold main mainWith deepPhase remainingKeys
  rw [h1, deep_scan_skip h]

/-- Removing the `None`-prefix patterns does not change which pattern the
classifier picks for any key. -/
theorem matchedPattern_filter_prefixed {dps : List DynPattern} {key : String} :
    matchedPattern (dps.filter (fun dp => dp.pfx.isSome)) key = matchedPattern dps key := by
  induction dps with
  | nil => rfl
  | cons dp rest ih =>
    cases hp : dp.pfx with
    | none =>
      simp only [matchedPattern, List.filter_cons, hp, Option.isSome_none,
        Bool.false_eq_true, if_false, List.find?]
      exact ih
    | some p =>
      simp only [matchedPattern, List.filter_cons, hp, Option.isSome_some, if_true,
        List.find?]
      cases hb : (!(p == "") && strStartsWith key p) with
      | true => rfl
      | false => exact ih

/-- C10: variable-reference dynamic patterns (recorded with a `None` prefix)
appear only in the report's `dynamic_patterns` list and never influence any
key's classification: removing them from the collected pattern list leaves
the used, possibly-dynamic, unused and test-only outputs unchanged. -/
theorem variable_patterns_no_influence (doc : KeyDoc) (files : List SrcFile) :
    (mainWith doc files
        (((phase1 files).dynamic_patterns).filter (fun dp => dp.pfx.isSome))).used =
      (main doc files).used ∧
    (mainWith doc files
        (((phase1 files).dynamic_patterns).filter (fun dp => dp.pfx.isSome))).possibly_dynamic =
      (main doc files).possibly_dynamic ∧
    (mainWith doc files
        (((phase1 files).dynamic_patterns).filter (fun dp => dp.pfx.isSome))).unused =
      (main doc files).unused ∧
    (mainWith doc files
        (((phase1 files).dynamic_patterns).filter (fun dp => dp.pfx.isSome))).test_only_keys =
      (main doc files).test_only_keys := by
  have hpd : ∀ kv : String × String,
      pdSel (phase1 files).used_keys (deepPhase doc files).1 (deepPhase doc files).2
        (((phase1 files).dynamic_patterns).filter (fun dp => dp.pfx.isSome)) kv =
      pdSel (phase1 files).used_keys (deepPhase doc files).1 (deepPhase doc files).2
        (phase1 files).dynamic_patterns kv := by
    intro kv
    unfold pdSel
    rw [matchedPattern_filter_prefixed]
  have hun : ∀ kv : String × String,
      unusedSel (phase1 files).used_keys (deepPhase doc files).1
        (((phase1 files).dynamic_patterns).filter (fun dp => dp.pfx.isSome)) kv =
      unusedSel (phase1 files).used_keys (deepPhase doc files).1
        (phase1 files).dynamic_patterns kv := by
    intro kv
    unfold unusedSel
    rw [matchedPattern_filter_prefixed]
  have hu : (mainWith doc files
      (((phase1 files).dynamic_patterns).filter (fun dp => dp.pfx.isSome))).used =
      (main doc files).used := by
    rw [mainWith_used, main_used]
  refine ⟨hu, ?_, ?_, ?_⟩
  · rw [mainWith_pd, main_pd]
    exact List.filterMap_congr (fun kv _ => hpd kv)
  · rw [mainWith_unused, main_unused]
    exact List.filterMap_congr (fun kv _ => hun kv)
  · rw [mainWith_test_only, main_test_only, hu]

/-- Counterexample to C4 as stated: a template call `t(\x60.${x}\x60)`
records a pattern whose separator-trimmed prefix is the empty string; every
key starts with that prefix, yet the classifier skips falsy (empty)
prefixes, so the key `zzz` is classified UNUSED, not POSSIBLY_DYNAMIC. -/
theorem prefix_pattern_counterexample :
    "zzz" ∈ definedKeys (KeyDoc.consLeaf "zzz" (JVal.str "Z") KeyDoc.nil) ∧
    "zzz" ∉ (phase1 [⟨"/r/t.ts", "t.ts", some "t(`.${x}`)"⟩]).used_keys ∧
    "zzz" ∉ (deepPhase (KeyDoc.consLeaf "zzz" (JVal.str "Z") KeyDoc.nil)
      [⟨"/r/t.ts", "t.ts", some "t(`.${x}`)"⟩]).1 ∧
    (∃ dp ∈ (phase1 [(⟨"/r/t.ts", "t.ts", some "t(`.${x}`)"⟩ : SrcFile)]).dynamic_patterns,
      ∃ p, dp.pfx = some p ∧ strStartsWith "zzz" p = true) ∧
    "zzz" ∉ (main (KeyDoc.consLeaf "zzz" (JVal.str "Z") KeyDoc.nil)
      [⟨"/r/t.ts", "t.ts", some "t(`.${x}`)"⟩]).possibly_dynamic.map Prod.fst ∧
    "zzz" ∈ (main (KeyDoc.consLeaf "zzz" (JVal.str "Z") KeyDoc.nil)
      [⟨"/r/t.ts", "t.ts", some "t(`.${x}`)"⟩]).unused.map Prod.fst := by
  decide

/-- C4 (amended): for every defined key not found by the direct scan and not
recovered by the deep scan, if the *nonempty* separator-trimmed prefix of
some recorded dynamic pattern starts the key, the key is classified
POSSIBLY_DYNAMIC with evidence taken from the first such pattern in
extraction order (`matchedPattern` is the first-match search), even when
several pattern prefixes match. -/
theorem prefix_pattern_classification (doc : KeyDoc) (files : List SrcFile)
    (key : String) (dp : DynPattern)
    (hdef : key ∈ definedKeys doc)
    (hused : key ∉ (phase1 files).used_keys)
    (hdeep : key ∉ (deepPhase doc files).1)
    (hfirst : matchedPattern (phase1 files).dynamic_patterns key = some dp) :
    ∃ value, (key, value) ∈ allKeys doc ∧
      (key, pfxEntry dp value) ∈ (main doc files).possibly_dynamic := by
  rcases List.mem_map.mp hdef with ⟨kv, hkv, rfl⟩
  refine ⟨kv.2, by simpa using hkv, ?_⟩
  rw [main_pd]
  refine List.mem_filterMap.mpr ⟨kv, hkv, ?_⟩
  rw [pdSel_eq_some]
  exact ⟨hused, Or.inr ⟨hdeep, dp, hfirst, rfl⟩⟩

/-! ## Concrete runs used by the witnesses -/

def wDoc : KeyDoc := .consDict "a" (.consLeaf "b" (.str "B") .nil) .nil

def wFiles : List SrcFile := [⟨"/r/x.ts", "x.ts", some "t(\"a.b\")"⟩]

def wFiles2 : List SrcFile := [⟨"/r/y.ts", "y.ts", some "t(\"a.b\"); cfg = \"a.b\""⟩]

def w4Doc : KeyDoc :=
  .consDict "a" (.consDict "b" (.consLeaf "c" (.str "C") .nil) .nil) .nil

def w4Files : List SrcFile := [⟨"/r/p.ts", "p.ts", some "t(`a.${x}`) t(`a.b${y}`)"⟩]

def w5Doc : KeyDoc := .consDict "x" (.consLeaf "y" (.str "Y") .nil) .nil

def w5File : SrcFile := ⟨"/r/z.ts", "z.ts", some "const a = \"x.y\";"⟩

def w7f1 : SrcFile := ⟨"/r/u.ts", "u.ts", some "t(\"k.a\")"⟩

def w7f2 : SrcFile := ⟨"/r/v.ts", "v.ts", some "t(\"k.a\")"⟩

def w8Doc : KeyDoc := .consLeaf "q.r" (.str "Q") .nil

def w8g : SrcFile := ⟨"/r/g.ts", "g.ts", some "t(\"q.r\")"⟩

def w8h : SrcFile := ⟨"/r/h.ts", "h.ts", some "\"q.r\""⟩

def wBad : SrcFile := ⟨"/r/bad.ts", "bad.ts", none⟩

/-- Witness for C1 at a concrete run. -/
theorem classification_partition_witness :
    ("a.b" ∈ definedKeys wDoc) ∧
    ((main wDoc wFiles).used.length + (main wDoc wFiles).possibly_dynamic.length +
        (main wDoc wFiles).unused.length = (main wDoc wFiles).total_defined) ∧
    (("a.b" ∈ (main wDoc wFiles).used.map Prod.fst ∧
        "a.b" ∉ (main wDoc wFiles).possibly_dynamic.map Prod.fst ∧
        "a.b" ∉ (main wDoc wFiles).unused.map Prod.fst) ∨
      ("a.b" ∉ (main wDoc wFiles).used.map Prod.fst ∧
        "a.b" ∈ (main wDoc wFiles).possibly_dynamic.map Prod.fst ∧
        "a.b" ∉ (main wDoc wFiles).unused.map Prod.fst) ∨
      ("a.b" ∉ (main wDoc wFiles).used.map Prod.fst ∧
        "a.b" ∉ (main wDoc wFiles).possibly_dynamic.map Prod.fst ∧
        "a.b" ∈ (main wDoc wFiles).unused.map Prod.fst)) :=
  ⟨by decide, (classification_partition wDoc wFiles).1,
    (classification_partition wDoc wFiles).2 "a.b" (by decide)⟩

/-- Witness for C2 at a concrete run in which the key is both directly
referenced and present as a bare quoted string. -/
theorem direct_scan_precedence_witness :
    ("a.b" ∈ definedKeys wDoc) ∧ ("a.b" ∈ (phase1 wFiles2).used_keys) ∧
    ("a.b" ∈ (main wDoc wFiles2).used.map Prod.fst ∧
      "a.b" ∉ (main wDoc wFiles2).possibly_dynamic.map Prod.fst ∧
      "a.b" ∉ remainingKeys wDoc wFiles2 ∧
      "a.b" ∉ (deepPhase wDoc wFiles2).1) :=
  ⟨by decide, by decide,
    direct_scan_precedence wDoc wFiles2 "a.b" (by decide) (by decide)⟩

/-- Witness for the amended C4 at a run in which two pattern prefixes match
the key and the first one in extraction order supplies the evidence. -/
theorem prefix_pattern_classification_witness :
    ("a.b.c" ∈ definedKeys w4Doc) ∧
    ("a.b.c" ∉ (phase1 w4Files).used_keys) ∧
    ("a.b.c" ∉ (deepPhase w4Doc w4Files).1) ∧
    (matchedPattern (phase1 w4Files).dynamic_patterns "a.b.c" =
      some ⟨"a.${x}", some "a", "p.ts"⟩) ∧
    (∃ value, ("a.b.c", value) ∈ allKeys w4Doc ∧
      ("a.b.c", pfxEntry ⟨"a.${x}", some "a", "p.ts"⟩ value) ∈
        (main w4Doc w4Files).possibly_dynamic) :=
  ⟨by decide, by decide, by decide, by decide,
    prefix_pattern_classification w4Doc w4Files "a.b.c" ⟨"a.${x}", some "a", "p.ts"⟩
      (by decide) (by decide) (by decide) (by decide)⟩

/-- Witness for C5 at a concrete run. -/
theorem deep_scan_recovery_witness :
    (w5File ∈ [w5File]) ∧ fileDeepFinds w5File "x.y" ∧
    ("x.y" ∈ remainingKeys w5Doc [w5File]) ∧
    ("x.y" ∈ (deepPhase w5Doc [w5File]).1 ∧
      w5File.rel ∈ (deepPhase w5Doc [w5File]).2 "x.y") :=
  ⟨by decide, ⟨"const a = \"x.y\";", rfl, by decide, by decide⟩, by decide,
    deep_scan_recovery w5Doc [w5File] w5File "x.y" (by decide)
      ⟨"const a = \"x.y\";", rfl, by decide, by decide⟩ (by decide)⟩

/-- Witness for C7: the same key referenced from two files, scanned in both
orders. -/
theorem evidence_union_witness :
    (∀ f ∈ [w7f1, w7f2], localeSkip f.path = false) ∧
    ([w7f1, w7f2].Perm [w7f2, w7f1]) ∧
    (("u.ts" ∈ (phase1 [w7f1, w7f2]).key_usage_locations "k.a" ↔
        ∃ f ∈ [w7f1, w7f2], f.rel = "u.ts" ∧
          ∃ c, f.content = some c ∧ "k.a" ∈ extract_t_calls c) ∧
      ("u.ts" ∈ (phase1 [w7f1, w7f2]).key_usage_locations "k.a" ↔
        "u.ts" ∈ (phase1 [w7f2, w7f1]).key_usage_locations "k.a")) :=
  ⟨by decide, List.Perm.swap w7f2 w7f1 [],
    evidence_union [w7f1, w7f2] [w7f2, w7f1] "k.a" "u.ts" (by decide)
      (List.Perm.swap w7f2 w7f1 [])⟩

/-- Witness for C8: a previously unused key becomes USED when a referencing
file is appended and stays USED when a further (deep-scan bait) file is
appended. -/
theorem direct_reference_monotonic_witness :
    ("q.r" ∈ definedKeys w8Doc) ∧
    ("q.r" ∈ (main w8Doc []).unused.map Prod.fst) ∧
    ("q.r" ∈ (main w8Doc ([] ++ [w8g])).used.map Prod.fst) ∧
    ("q.r" ∈ (main w8Doc ([] ++ [w8g] ++ [w8h])).used.map Prod.fst ∧
      "q.r" ∉ (main w8Doc ([] ++ [w8g] ++ [w8h])).possibly_dynamic.map Prod.fst ∧
      "q.r" ∉ (main w8Doc ([] ++ [w8g] ++ [w8h])).unused.map Prod.fst) :=
  ⟨by decide, by decide,
    (direct_reference_monotonic w8Doc [] w8g "q.r" "t(\"q.r\")" (by decide) (by decide)
      rfl (by decide) (by decide)).1,
    (direct_reference_monotonic w8Doc [] w8g "q.r" "t(\"q.r\")" (by decide) (by decide)
      rfl (by decide) (by decide)).2 [w8h]⟩

/-- Witness for C9 at a concrete run containing an unreadable file. -/
theorem skipped_file_no_effect_witness :
    wBad.content = none ∧
    main wDoc (wFiles ++ wBad :: []) = main wDoc (wFiles ++ []) :=
  ⟨rfl, skipped_file_no_effect wDoc wFiles [] wBad rfl⟩

end I18nAnalyze
